import Mathlib

/-!
Verification of the cloud_unzip repository (src/cloud_unzip/core.py) against
its natural-language specification.

The embedding translates the pure computational content of core.py into Lean:
byte streams become lists of naturals, the chunked read loop becomes a
recursive function, the parallel scheduler becomes an explicit fold over the
requested filenames with a per-job outcome oracle, and console / remote I/O
become explicit event traces.  The repository delegates ZIP central-directory
parsing and Zip64 widening to the external zipfile library, whose code is not
part of the repository; those parts are modelled from the specification and
marked as such in their doc comments.
-/

namespace CloudUnzip

/-! ## format_size (core.py lines 11-21) -/

/-- Unit table of format_size (core.py line 12). -/
def sizeUnits : List String := ["B", "KB", "MB", "GB", "TB"]

/-- Loop of format_size (core.py lines 15-17): while size >= 1024 and
unit_index < len(units) - 1, divide by 1024 and bump the index.  Python
computes on floats; every value the loop produces while unit_index is
below 4 is size_in_bytes / 1024^unit_index with size_in_bytes below 2^40,
which a binary float represents exactly, so the running value is embedded
as an exact fraction num / den whose denominator is multiplied by 1024 at
each division.  The comparison size >= 1024 becomes 1024 * den <= num.
The loop body runs at most four times because its condition requires
unit_index < 4, so a structural fuel of 4 is exact for every start
index. -/
def sizeLoopF : Nat → Nat → Nat → Nat → (Nat × Nat) × Nat
  | 0, num, den, unit_index => ((num, den), unit_index)
  | fuel + 1, num, den, unit_index =>
    if 1024 * den ≤ num ∧ unit_index < 4 then sizeLoopF fuel num (den * 1024) (unit_index + 1)
    else ((num, den), unit_index)

/-- The format_size loop started as in the source: size = float(size_in_bytes)
is the exact fraction size_in_bytes / 1, and unit_index = 0. -/
def sizeLoop (size_in_bytes : Nat) : (Nat × Nat) × Nat := sizeLoopF 4 size_in_bytes 1 0

/-- Round a nonnegative fraction num / den to the nearest integer, ties to
even.  This models how Python renders a float with the .2f format once the
value has been scaled by 100: CPython formats the exact binary value of the
float, correctly rounded with ties to even, and every value reaching the
two-decimal branch of format_size is an exactly represented dyadic
rational. -/
def roundHalfEven (num den : Nat) : Nat :=
  let q := num / den
  let r := num % den
  if 2 * r < den then q
  else if den < 2 * r then q + 1
  else if q % 2 = 0 then q else q + 1

/-- Render the nonnegative fraction num / den with exactly two decimal
places, as the Python format string does for the exactly represented values
produced by the format_size loop (core.py line 21). -/
def twoDecimalString (num den : Nat) : String :=
  let scaled := roundHalfEven (num * 100) den
  toString (scaled / 100) ++ "." ++
    (if scaled % 100 < 10 then "0" ++ toString (scaled % 100) else toString (scaled % 100))

/-- format_size (core.py lines 11-21): run the division loop, then render
either as a bare integer with unit B (index 0, where int(size) is the
integer part of the fraction) or with two decimals and the selected
unit. -/
def format_size (size_in_bytes : Nat) : String :=
  let p := sizeLoop size_in_bytes
  if p.2 = 0 then toString (p.1.1 / p.1.2) ++ " " ++ sizeUnits.getD 0 ""
  else twoDecimalString p.1.1 p.1.2 ++ " " ++ sizeUnits.getD p.2 ""

/-! ## The chunked extraction loop (core.py lines 168-183 and 258-273) -/

/-- Chunked read loop of extract_file and extract_file_from_remote_zip:
read up to chunkSize bytes from the decoded source stream, stop on the
first empty read, otherwise append the chunk to the target and record one
progress computation min 100 (bytes_read * 100 / total_size).  The first
component of the result is the byte sequence written to the target, the
second the list of (bytes_read, progress) pairs, one per executed progress
computation.  The loop consumes at least one byte per iteration, so a
structural fuel equal to the source length is exact: fuel runs out only
when the source is already empty, where the loop would stop anyway. -/
def extractLoopF : Nat → List Nat → Nat → Nat → Nat → List Nat × List (Nat × Nat)
  | 0, _, _, _, _ => ([], [])
  | fuel + 1, source, chunkSize, bytesRead, totalSize =>
    let chunk := source.take chunkSize
    if chunk = [] then ([], [])
    else
      let bytes := bytesRead + chunk.length
      let prog := min 100 (bytes * 100 / totalSize)
      let rest := extractLoopF fuel (source.drop chunkSize) chunkSize bytes totalSize
      (chunk ++ rest.1, (bytes, prog) :: rest.2)

/-- The chunked read loop at its natural fuel. -/
def extractLoop (source : List Nat) (chunkSize bytesRead totalSize : Nat) :
    List Nat × List (Nat × Nat) :=
  extractLoopF source.length source chunkSize bytesRead totalSize

/-- Single-shot path (core.py line 243): f.read() returns the whole decoded
stream at once. -/
def readAll (stream : List Nat) : List Nat := stream

/-- Modelled from the spec: decoding of a stored (method 0) entry is a
byte-for-byte copy of its data (spec section 4.5).  The repository delegates
entry decoding to the external zipfile library, which is not part of the
source tree. -/
def storedDecode (compressedBytes : List Nat) : List Nat := compressedBytes

/-! ## match_files (core.py lines 23-53) -/

/-- Add a file path to the accumulated match set (matched_files.add at
core.py lines 43 and 51); membership in a set is idempotent, and first
insertion order is kept only as a representation, since the result is
sorted afterwards. -/
def insertSet (acc : List String) (f : String) : List String :=
  if f ∈ acc then acc else acc ++ [f]

/-- Inner loop over file_list for one pattern (core.py lines 41-43 and
49-51): add every file accepted by the matcher for this pattern. -/
def matchLoop (matchOne : String → Bool) (file_list : List String) (acc : List String) :
    List String :=
  file_list.foldl (fun a f => if matchOne f then insertSet a f else a) acc

/-- One iteration of the outer pattern loop (core.py lines 37-51).  In regex
mode the pattern is first compiled; compilation failure (re.error) is
reported to stderr and the pattern is skipped, leaving the accumulator
unchanged.  The single-pattern matchers are parameters of the embedding:
globMatch stands for fnmatch.fnmatch(file_path, pattern) and compileRegex
for re.compile, returning none exactly when re.compile raises re.error. -/
def patternStep (file_list : List String) (use_regex : Bool)
    (globMatch : String → String → Bool) (compileRegex : String → Option (String → Bool))
    (acc : List String) (pattern : String) : List String :=
  if use_regex then
    match compileRegex pattern with
    | some rx => matchLoop rx file_list acc
    | none => acc
  else matchLoop (fun f => globMatch f pattern) file_list acc

/-- The full pattern loop of match_files starting from the empty set. -/
def collectMatches (file_list patterns : List String) (use_regex : Bool)
    (globMatch : String → String → Bool) (compileRegex : String → Option (String → Bool)) :
    List String :=
  patterns.foldl (patternStep file_list use_regex globMatch compileRegex) []

/-- match_files (core.py lines 23-53): collect the set of matching files and
return it sorted ascending (sorted(list(matched_files)), Python string order
being lexicographic on code points, as is the Lean order on String). -/
def match_files (file_list patterns : List String) (use_regex : Bool)
    (globMatch : String → String → Bool) (compileRegex : String → Option (String → Bool)) :
    List String :=
  List.insertionSort (· ≤ ·) (collectMatches file_list patterns use_regex globMatch compileRegex)

/-- Effective acceptance of one pattern for one file, covering both modes. -/
def effectiveMatch (use_regex : Bool) (globMatch : String → String → Bool)
    (compileRegex : String → Option (String → Bool)) (f pattern : String) : Bool :=
  if use_regex then
    match compileRegex pattern with
    | some rx => rx f
    | none => false
  else globMatch f pattern

/-! ## Console I/O of the core operations (core.py lines 140-142, 168-188) -/

/-- Stderr lines written by extract_file while extracting one entry
(core.py lines 178-183): one carriage-return progress line per chunk,
then one bare newline after the loop.  The progress line interpolates the
filename, the formatted byte counts and the integer percentage. -/
def extractFileConsole (filename : String) (data : List Nat) (chunkSize totalSize : Nat) :
    List String :=
  ((extractLoop data chunkSize 0 totalSize).2.map (fun bp =>
    "\rExtracting \x27" ++ filename ++ "\x27: " ++ format_size bp.1 ++ "/" ++
      format_size totalSize ++ " (" ++ toString bp.2 ++ "%)")) ++ [""]

/-- list_files (core.py lines 140-142) returns the parsed name list and
performs no console output: its body is a single return with no print or
prompt, so its stderr trace is empty by construction. -/
def list_files (names : List String) : List String × List String := (names, [])

/-! ## The parallel scheduler (core.py lines 194-231) -/

/-- Error raised by the batch validation (core.py line 198).  The source
raises ValueError with the list of missing names; the spec calls this error
kind MissingEntryError. -/
inductive SchedError where
  | missingEntry : List String → SchedError

/-- Result of one extract_files_parallel call: the returned value, the list
of jobs submitted to the executor, and the destination files written to
completion. -/
structure SchedResult where
  result : Except SchedError (List String)
  scheduled : List String
  written : List String

/-- os.path.basename: the part of the path after the last slash. -/
def basename (p : String) : String := (p.splitOn "/").getLastD p

/-- Destination path of one job (core.py lines 203-206): output_dir joined
with the basename when flattening, else with the full member name. -/
def destPath (outputDir : String) (flatten : Bool) (filename : String) : String :=
  if flatten then outputDir ++ "/" ++ basename filename
  else outputDir ++ "/" ++ filename

/-- Collection loop over completed futures (core.py lines 223-229),
determinized to submission order: a job whose future raises is reported and
skipped, a job that succeeds contributes its destination path.  The per-job
outcome oracle jobOk abstracts whether the extraction job raised. -/
def runJobs (jobOk : String → Bool) (dest : String → String) : List String → List String
  | [] => []
  | f :: rest =>
    if jobOk f then dest f :: runJobs jobOk dest rest else runJobs jobOk dest rest

/-- extract_files_parallel (core.py lines 194-231): filenames absent from
the parsed name list are collected first and, if any, the whole call raises
before the executor block is entered, so nothing is scheduled and nothing
is written; otherwise every filename becomes one submitted job and the
returned list holds the destination paths of the jobs that completed
without raising. -/
def extract_files_parallel (namelist filenames : List String) (outputDir : String)
    (flatten : Bool) (jobOk : String → Bool) : SchedResult :=
  let missing := filenames.filter (fun f => !(namelist.contains f))
  if missing.isEmpty then
    let paths := runJobs jobOk (destPath outputDir flatten) filenames
    ⟨.ok paths, filenames, paths⟩
  else ⟨.error (.missingEntry missing), [], []⟩

/-- Stderr lines of one batch job (core.py lines 212-218 and 228-229): the
header line printed before the job runs, the inner extract_file trace
(abstract, since a job that raises may stop anywhere inside it), then the
success line, or the failure line of the wrapper followed by the error line
of the collection loop.  The interleaving across jobs is determinized to
submission order, as for the returned paths. -/
def batchJobConsole (outputDir : String) (flatten : Bool) (jobOk : String → Bool)
    (inner : String → List String) (errMsg : String → String) (f : String) : List String :=
  ("Extracting \x27" ++ f ++ "\x27 to \x27" ++ destPath outputDir flatten f ++ "\x27...") ::
    inner f ++
    (if jobOk f then ["Successfully extracted \x27" ++ f ++ "\x27"]
    else ["Failed to extract \x27" ++ f ++ "\x27: " ++ errMsg f,
      "Error extracting \x27" ++ f ++ "\x27: " ++ errMsg f])

/-- Stderr trace of one extract_files_parallel call (core.py lines
194-231): nothing is printed when the up-front validation raises, since the
raise precedes the executor block; otherwise every submitted job
contributes its status lines. -/
def extractFilesParallelConsole (namelist filenames : List String) (outputDir : String)
    (flatten : Bool) (jobOk : String → Bool) (inner : String → List String)
    (errMsg : String → String) : List String :=
  let missing := filenames.filter (fun f => !(namelist.contains f))
  if missing.isEmpty then
    (filenames.map (batchJobConsole outputDir flatten jobOk inner errMsg)).flatten
  else []

/-! ## Remote resource access (core.py lines 89-231, 233-281) -/

/-- One primitive operation against the remote resource.  The write
constructor exists so that read-only-ness is a statement, not a tautology
of the action type. -/
inductive RemoteOp where
  | read : Nat → Nat → RemoteOp
  | write : Nat → List Nat → RemoteOp

/-- Effect of one remote operation on the remote byte content: a read
leaves it unchanged, a write splices new bytes in at the given offset. -/
def applyOp (remote : List Nat) : RemoteOp → List Nat
  | .read _ _ => remote
  | .write start bytes => remote.take start ++ bytes ++ remote.drop (start + bytes.length)

/-- Effect of a whole operation trace on the remote byte content. -/
def applyTrace (ops : List RemoteOp) (remote : List Nat) : List Nat :=
  ops.foldl applyOp remote

/-- Trace of byte-range reads issued through fs.open(url), which the source
always opens in the default read-only mode; the concrete ranges chosen by
the zipfile library are abstracted as a parameter. -/
def readTrace (ranges : List (Nat × Nat)) : List RemoteOp :=
  ranges.map (fun r => RemoteOp.read r.1 r.2)

/-- Remote trace of a listing call: the reads of the session open
(core.py lines 97-111); list_files itself touches only parsed state. -/
def listFilesTrace (openRanges : List (Nat × Nat)) : List RemoteOp :=
  readTrace openRanges

/-- Remote trace of one extract_file call (core.py lines 161-191): a fresh
read-only open of the url followed by the reads of the entry decode. -/
def extractFileTrace (openRanges entryRanges : List (Nat × Nat)) : List RemoteOp :=
  readTrace openRanges ++ readTrace entryRanges

/-- Remote trace of a batch extraction: the concatenation of the per-job
extract_file traces (core.py lines 202-231). -/
def batchExtractTrace (perJob : List (List (Nat × Nat))) : List RemoteOp :=
  perJob.foldl (fun acc r => acc ++ readTrace r) []

/-! ## Central directory records and Zip64 widening

The repository opens the archive with zipfile.ZipFile (core.py line 102);
the central-directory decode and the Zip64 sentinel widening live in the
external zipfile library, outside the source tree, so this part is
modelled from the specification (sections 3, 4.3 and 8). -/

/-- The 32-bit sentinel signalling that the true value lives in the Zip64
extension. -/
def zip64Sentinel : Nat := 0xFFFFFFFF

/-- One archive member after central-directory decode (spec section 3). -/
structure EntryRecord where
  compressionMethod : Nat
  uncompressedSize : Nat
  compressedSize : Nat
  localHeaderOffset : Nat

/-- The 32-bit fields of one central-directory record before Zip64
widening. -/
structure RawCDRecord where
  compressionMethod : Nat
  uncompressedSize32 : Nat
  compressedSize32 : Nat
  localHeaderOffset32 : Nat

/-- Value of a little-endian byte list (least significant byte first). -/
def leVal (bs : List Nat) : Nat := bs.foldr (fun b acc => b + 256 * acc) 0

/-- Modelled from the spec: consume one little-endian 64-bit value, eight
bytes, from the head of the Zip64 extended-information data. -/
def readU64LE : List Nat → Option (Nat × List Nat)
  | b0 :: b1 :: b2 :: b3 :: b4 :: b5 :: b6 :: b7 :: rest =>
    some (leVal [b0, b1, b2, b3, b4, b5, b6, b7], rest)
  | _ => none

/-- Modelled from the spec: scan the extra field of a central-directory
entry, a sequence of tag-size-data blocks with little-endian 16-bit tag and
size, for tag 0x0001 (Zip64 extended information), returning its data.
Each block consumes at least four bytes, so a structural fuel equal to the
field length is exact. -/
def findZip64ExtraF : Nat → List Nat → Option (List Nat)
  | 0, _ => none
  | fuel + 1, t0 :: t1 :: s0 :: s1 :: rest =>
    let tag := t0 + 256 * t1
    let size := s0 + 256 * s1
    if tag = 1 then some (rest.take size)
    else findZip64ExtraF fuel (rest.drop size)
  | _ + 1, _ => none

/-- Scan for the Zip64 extended-information block at its natural fuel. -/
def findZip64Extra (extra : List Nat) : Option (List Nat) :=
  findZip64ExtraF extra.length extra

/-- Modelled from the spec: widen one field, consuming eight bytes of the
Zip64 data exactly when the 32-bit field holds the sentinel, and leaving
both the field and the data untouched otherwise (spec section 4.3). -/
def widenField (current : Nat) (d : List Nat) : Option (Nat × List Nat) :=
  if current = zip64Sentinel then readU64LE d else some (current, d)

/-- Modelled from the spec: Zip64 widening of one central-directory record
(spec section 4.3).  When no field holds the sentinel the record passes
through unchanged and the Zip64 extension is never read; when some field
does, the Zip64 extended-information data is located and the sentinel
fields are overwritten in the fixed order uncompressed size, compressed
size, local-header offset, consuming eight bytes per sentinel field and
skipping fields that were not sentinel.  Failure to locate or to consume
the needed bytes fails the record. -/
def applyZip64 (r : RawCDRecord) (extra : List Nat) : Option EntryRecord :=
  if r.uncompressedSize32 = zip64Sentinel ∨ r.compressedSize32 = zip64Sentinel ∨
      r.localHeaderOffset32 = zip64Sentinel then
    match findZip64Extra extra with
    | none => none
    | some d =>
      match widenField r.uncompressedSize32 d with
      | none => none
      | some (u, d1) =>
        match widenField r.compressedSize32 d1 with
        | none => none
        | some (c, d2) =>
          match widenField r.localHeaderOffset32 d2 with
          | none => none
          | some (o, _) => some ⟨r.compressionMethod, u, c, o⟩
  else some ⟨r.compressionMethod, r.uncompressedSize32, r.compressedSize32,
    r.localHeaderOffset32⟩

/-- Modelled from the spec: the 16-bit entry count of the EOCD record is
replaced by the 64-bit count from the Zip64 EOCD record exactly when it
holds the 16-bit sentinel 0xFFFF (spec sections 4.3 and 8). -/
def effectiveEntryCount (count16 zip64Count : Nat) : Nat :=
  if count16 = 0xFFFF then zip64Count else count16

/-! ## The filename to EntryRecord mapping (spec sections 3 and 4.3)

Modelled from the spec: the central-directory parser produces a filename
to EntryRecord mapping in which the later of two records with the same
name overwrites the earlier one (last write wins), names are unique as
mapping keys, and the listing operation exposes exactly the mapping keys
(core.py lines 140-142 delegate this to zipfile.ZipFile). -/

/-- One decoded central-directory record: a filename with its entry
data. -/
structure CDFileHeader where
  filename : String
  record : EntryRecord

/-- Insert one decoded record into the mapping with dictionary semantics:
replace the value of an existing key in place, append a new key at the
end. -/
def insertEntry : List (String × EntryRecord) → String → EntryRecord →
    List (String × EntryRecord)
  | [], name, er => [(name, er)]
  | p :: rest, name, er =>
    if p.1 == name then (name, er) :: rest else p :: insertEntry rest name er

/-- Modelled from the spec: fold the decoded central-directory records into
the filename to EntryRecord mapping, later records overwriting earlier ones
with the same name. -/
def buildNameMap (records : List CDFileHeader) : List (String × EntryRecord) :=
  records.foldl (fun m r => insertEntry m r.filename r.record) []

/-- The mapping keys, which the listing operation returns. -/
def listNames (m : List (String × EntryRecord)) : List String := m.map (fun p => p.1)

/-- Lookup of one name in the mapping. -/
def lookupName (m : List (String × EntryRecord)) (name : String) : Option EntryRecord :=
  (m.find? (fun p => p.1 == name)).map (fun p => p.2)

/-! ## Helper lemmas -/

theorem extractLoopF_fst (fuel : Nat) :
    ∀ (source : List Nat) (chunkSize bytesRead totalSize : Nat),
      source.length ≤ fuel → 0 < chunkSize →
      (extractLoopF fuel source chunkSize bytesRead totalSize).1 = source := by
  induction fuel with
  | zero =>
    intro source _ _ _ hlen _
    have : source = [] := List.length_eq_zero.mp (Nat.le_zero.mp hlen)
    subst this
    rfl
  | succ fuel ih =>
    intro source chunkSize bytesRead totalSize hlen hcs
    by_cases hc : source.take chunkSize = []
    · rcases List.take_eq_nil_iff.mp hc with h0 | h0
      · omega
      · subst h0
        simp [extractLoopF]
    · have hs : source ≠ [] := by
        intro h0
        subst h0
        simp at hc
      have hrec := ih (source.drop chunkSize) chunkSize
        (bytesRead + (source.take chunkSize).length) totalSize
        (by
          rw [List.length_drop]
          have : 0 < source.length := List.length_pos.mpr hs
          omega) hcs
      simp only [extractLoopF, if_neg hc]
      rw [hrec]
      exact List.take_append_drop chunkSize source

theorem runJobs_eq_filter_map (jobOk : String → Bool) (dest : String → String) :
    ∀ l : List String, runJobs jobOk dest l = (l.filter jobOk).map dest := by
  intro l
  induction l with
  | nil => rfl
  | cons f rest ih =>
    by_cases h : jobOk f = true
    · simp [runJobs, List.filter_cons, h, ih]
    · simp [runJobs, List.filter_cons, h, ih]

theorem length_filter_eq_length_iff (jobOk : String → Bool) (l : List String) :
    (l.filter jobOk).length = l.length ↔ ∀ f ∈ l, jobOk f = true := by
  induction l with
  | nil => simp
  | cons f rest ih =>
    by_cases h : jobOk f = true
    · simp [List.filter_cons, h, ih]
    · have hle := List.length_filter_le jobOk rest
      simp only [List.filter_cons, h, if_neg]
      constructor
      · intro hlen
        exfalso
        simp at hlen
        omega
      · intro hall
        exact absurd (hall f (List.mem_cons_self f rest)) h

theorem lookupName_insertEntry (name : String) (er : EntryRecord) :
    ∀ (m : List (String × EntryRecord)) (n : String),
      lookupName (insertEntry m name er) n = if n = name then some er else lookupName m n := by
  intro m
  induction m with
  | nil =>
    intro n
    by_cases h : n = name
    · subst h
      simp [insertEntry, lookupName, List.find?]
    · have hb : (name == n) = false := beq_eq_false_iff_ne.mpr fun he => h he.symm
      simp [insertEntry, lookupName, List.find?, hb, h]
  | cons p rest ih =>
    intro n
    cases hb : p.1 == name with
    | true =>
      have hp : p.1 = name := eq_of_beq hb
      by_cases h : n = name
      · subst h
        simp [insertEntry, hb, lookupName, List.find?]
      · have hb2 : (name == n) = false := beq_eq_false_iff_ne.mpr fun he => h he.symm
        have hb3 : (p.1 == n) = false := by rw [hp]; exact hb2
        simp [insertEntry, hb, lookupName, List.find?, hb2, hb3, h]
    | false =>
      have hp : p.1 ≠ name := beq_eq_false_iff_ne.mp hb
      by_cases hq : p.1 = n
      · have hn : ¬n = name := fun he => hp (hq.trans he)
        have hbq : (p.1 == n) = true := by simp [hq]
        simp [insertEntry, hb, lookupName, List.find?, hbq, hn]
      · have hbq : (p.1 == n) = false := beq_eq_false_iff_ne.mpr hq
        have hrec := ih n
        simp only [lookupName] at hrec
        simp [insertEntry, hb, lookupName, List.find?, hbq, hrec]

theorem mem_listNames_insertEntry (name : String) (er : EntryRecord) :
    ∀ (m : List (String × EntryRecord)) (x : String),
      x ∈ listNames (insertEntry m name er) ↔ x ∈ listNames m ∨ x = name := by
  intro m
  induction m with
  | nil => intro x; simp [insertEntry, listNames]
  | cons p rest ih =>
    intro x
    cases hb : p.1 == name with
    | true =>
      have hp : p.1 = name := eq_of_beq hb
      simp only [insertEntry, hb, if_pos, listNames, List.map_cons, List.mem_cons]
      subst hp
      tauto
    | false =>
      simp only [insertEntry, hb, Bool.false_eq_true, if_neg, not_false_eq_true,
        listNames, List.map_cons, List.mem_cons]
      have hrec := ih x
      simp only [listNames] at hrec
      rw [hrec]
      tauto

theorem nodup_listNames_insertEntry (name : String) (er : EntryRecord) :
    ∀ m : List (String × EntryRecord),
      (listNames m).Nodup → (listNames (insertEntry m name er)).Nodup := by
  intro m
  induction m with
  | nil => intro _; simp [insertEntry, listNames]
  | cons p rest ih =>
    intro hnd
    simp only [listNames, List.map_cons, List.nodup_cons] at hnd
    cases hb : p.1 == name with
    | true =>
      have hp : p.1 = name := eq_of_beq hb
      simp only [insertEntry, hb, if_pos, listNames, List.map_cons, List.nodup_cons]
      exact ⟨by rw [← hp]; simpa [listNames] using hnd.1, hnd.2⟩
    | false =>
      have hp : p.1 ≠ name := beq_eq_false_iff_ne.mp hb
      simp only [insertEntry, hb, Bool.false_eq_true, if_neg, not_false_eq_true,
        listNames, List.map_cons, List.nodup_cons]
      refine ⟨?_, ih hnd.2⟩
      intro hmem
      rcases (mem_listNames_insertEntry name er rest p.1).mp (by simpa [listNames] using hmem)
        with h | h
      · exact hnd.1 (by simpa [listNames] using h)
      · exact hp h

theorem mem_insertSet (acc : List String) (f x : String) :
    x ∈ insertSet acc f ↔ x ∈ acc ∨ x = f := by
  by_cases h : f ∈ acc
  · simp only [insertSet, if_pos h]
    constructor
    · exact Or.inl
    · rintro (hx | rfl)
      · exact hx
      · exact h
  · simp [insertSet, if_neg h]

theorem nodup_insertSet (acc : List String) (f : String) (h : acc.Nodup) :
    (insertSet acc f).Nodup := by
  by_cases hf : f ∈ acc
  · simpa [insertSet, if_pos hf] using h
  · simp only [insertSet, if_neg hf]
    rw [List.nodup_append]
    refine ⟨h, List.nodup_singleton f, ?_⟩
    intro a ha hb
    rw [List.mem_singleton] at hb
    subst hb
    exact hf ha

theorem mem_matchLoop (matchOne : String → Bool) (file_list : List String) :
    ∀ (acc : List String) (x : String),
      x ∈ matchLoop matchOne file_list acc ↔
        x ∈ acc ∨ (x ∈ file_list ∧ matchOne x = true) := by
  induction file_list with
  | nil => intro acc x; simp [matchLoop]
  | cons f fs ih =>
    intro acc x
    simp only [matchLoop, List.foldl_cons] at ih ⊢
    cases hm : matchOne f with
    | true =>
      rw [if_pos rfl, ih (insertSet acc f) x, mem_insertSet]
      constructor
      · rintro ((hx | rfl) | ⟨hxs, hmx⟩)
        · exact Or.inl hx
        · exact Or.inr ⟨List.mem_cons_self _ _, hm⟩
        · exact Or.inr ⟨List.mem_cons_of_mem _ hxs, hmx⟩
      · rintro (hx | ⟨hxf, hmx⟩)
        · exact Or.inl (Or.inl hx)
        · rcases List.mem_cons.mp hxf with rfl | hxs
          · exact Or.inl (Or.inr rfl)
          · exact Or.inr ⟨hxs, hmx⟩
    | false =>
      rw [if_neg Bool.false_ne_true, ih acc x]
      constructor
      · rintro (hx | ⟨hxs, hmx⟩)
        · exact Or.inl hx
        · exact Or.inr ⟨List.mem_cons_of_mem _ hxs, hmx⟩
      · rintro (hx | ⟨hxf, hmx⟩)
        · exact Or.inl hx
        · rcases List.mem_cons.mp hxf with rfl | hxs
          · rw [hmx] at hm
            cases hm
          · exact Or.inr ⟨hxs, hmx⟩

theorem nodup_matchLoop (matchOne : String → Bool) (file_list : List String) :
    ∀ acc : List String, acc.Nodup → (matchLoop matchOne file_list acc).Nodup := by
  induction file_list with
  | nil => intro acc h; exact h
  | cons f fs ih =>
    intro acc h
    simp only [matchLoop, List.foldl_cons] at ih ⊢
    by_cases hm : matchOne f = true
    · rw [if_pos hm]
      exact ih _ (nodup_insertSet acc f h)
    · rw [if_neg hm]
      exact ih _ h

theorem mem_patternStep (file_list : List String) (use_regex : Bool)
    (globMatch : String → String → Bool) (compileRegex : String → Option (String → Bool))
    (acc : List String) (pattern x : String) :
    x ∈ patternStep file_list use_regex globMatch compileRegex acc pattern ↔
      x ∈ acc ∨ (x ∈ file_list ∧
        effectiveMatch use_regex globMatch compileRegex x pattern = true) := by
  cases use_regex with
  | false => simp [patternStep, effectiveMatch, mem_matchLoop]
  | true =>
    cases hc : compileRegex pattern with
    | some rx => simp [patternStep, effectiveMatch, hc, mem_matchLoop]
    | none => simp [patternStep, effectiveMatch, hc]

theorem nodup_patternStep (file_list : List String) (use_regex : Bool)
    (globMatch : String → String → Bool) (compileRegex : String → Option (String → Bool))
    (acc : List String) (pattern : String) (h : acc.Nodup) :
    (patternStep file_list use_regex globMatch compileRegex acc pattern).Nodup := by
  cases use_regex with
  | false => exact nodup_matchLoop _ _ acc h
  | true =>
    cases hc : compileRegex pattern with
    | some rx => simpa [patternStep, hc] using nodup_matchLoop rx file_list acc h
    | none => simpa [patternStep, hc] using h

theorem mem_collect_go (file_list : List String) (use_regex : Bool)
    (globMatch : String → String → Bool) (compileRegex : String → Option (String → Bool)) :
    ∀ (patterns acc : List String) (x : String),
      x ∈ patterns.foldl (patternStep file_list use_regex globMatch compileRegex) acc ↔
        x ∈ acc ∨ (x ∈ file_list ∧ ∃ p ∈ patterns,
          effectiveMatch use_regex globMatch compileRegex x p = true) := by
  intro patterns
  induction patterns with
  | nil => intro acc x; simp
  | cons p ps ih =>
    intro acc x
    simp only [List.foldl_cons]
    rw [ih (patternStep file_list use_regex globMatch compileRegex acc p) x,
      mem_patternStep]
    simp only [List.mem_cons]
    constructor
    · rintro ((hx | ⟨hxl, hm⟩) | ⟨hxl, q, hq, hm⟩)
      · exact Or.inl hx
      · exact Or.inr ⟨hxl, p, Or.inl rfl, hm⟩
      · exact Or.inr ⟨hxl, q, Or.inr hq, hm⟩
    · rintro (hx | ⟨hxl, q, (rfl | hq), hm⟩)
      · exact Or.inl (Or.inl hx)
      · exact Or.inl (Or.inr ⟨hxl, hm⟩)
      · exact Or.inr ⟨hxl, q, hq, hm⟩

theorem nodup_collect_go (file_list : List String) (use_regex : Bool)
    (globMatch : String → String → Bool) (compileRegex : String → Option (String → Bool)) :
    ∀ patterns acc : List String, acc.Nodup →
      (patterns.foldl (patternStep file_list use_regex globMatch compileRegex) acc).Nodup := by
  intro patterns
  induction patterns with
  | nil => intro acc h; exact h
  | cons p ps ih =>
    intro acc h
    simp only [List.foldl_cons]
    exact ih _ (nodup_patternStep file_list use_regex globMatch compileRegex acc p h)

theorem buildNameMap_go_lookup (records : List CDFileHeader) :
    ∀ (m : List (String × EntryRecord)) (n : String),
      lookupName (records.foldl (fun m r => insertEntry m r.filename r.record) m) n =
        match records.reverse.find? (fun r => r.filename == n) with
        | some r => some r.record
        | none => lookupName m n := by
  induction records with
  | nil => intro m n; rfl
  | cons r rs ih =>
    intro m n
    simp only [List.foldl_cons, List.reverse_cons, List.find?_append]
    rw [ih (insertEntry m r.filename r.record) n]
    cases hfind : rs.reverse.find? (fun r => r.filename == n) with
    | some r' => simp [Option.or]
    | none =>
      simp only [Option.or]
      rw [lookupName_insertEntry]
      by_cases h : n = r.filename
      · simp [List.find?, h]
      · have hne : (r.filename == n) = false := by
          simp [beq_iff_eq]
          exact fun he => h he.symm
        simp [List.find?, hne, h]

theorem buildNameMap_go_mem (records : List CDFileHeader) :
    ∀ (m : List (String × EntryRecord)) (x : String),
      x ∈ listNames (records.foldl (fun m r => insertEntry m r.filename r.record) m) ↔
        x ∈ listNames m ∨ x ∈ records.map (fun r => r.filename) := by
  induction records with
  | nil => intro m x; simp
  | cons r rs ih =>
    intro m x
    simp only [List.foldl_cons, List.map_cons, List.mem_cons]
    rw [ih (insertEntry m r.filename r.record) x,
      mem_listNames_insertEntry r.filename r.record m x]
    tauto

theorem buildNameMap_go_nodup (records : List CDFileHeader) :
    ∀ m : List (String × EntryRecord),
      (listNames m).Nodup →
      (listNames (records.foldl (fun m r => insertEntry m r.filename r.record) m)).Nodup := by
  induction records with
  | nil => intro m h; exact h
  | cons r rs ih =>
    intro m hnd
    exact ih _ (nodup_listNames_insertEntry r.filename r.record m hnd)

/-! ## Claim theorems -/

/-- C4: the listing exposes exactly the set of names present in the central
directory, the names are unique as mapping keys, and on duplicate names the
later record overwrites the earlier one: the lookup of any name returns the
record of the last central-directory record bearing it (the first match in
the reversed record sequence). -/
theorem listing_matches_central_directory (records : List CDFileHeader) :
    (listNames (buildNameMap records)).Nodup ∧
    (∀ n, n ∈ listNames (buildNameMap records) ↔ n ∈ records.map (fun r => r.filename)) ∧
    (∀ n, lookupName (buildNameMap records) n =
      (records.reverse.find? (fun r => r.filename == n)).map (fun r => r.record)) := by
  refine ⟨?_, ?_, ?_⟩
  · exact buildNameMap_go_nodup records [] (by simp [listNames])
  · intro n
    rw [buildNameMap, buildNameMap_go_mem records [] n]
    simp [listNames]
  · intro n
    rw [buildNameMap, buildNameMap_go_lookup records [] n]
    cases hfind : records.reverse.find? (fun r => r.filename == n) with
    | some r => simp
    | none => simp [lookupName, List.find?]

/-- C3: for every entry, the chunked read loop (the 10 MiB loop of
extract_file, core.py lines 168-183) and the single-shot read
(extract_file_from_remote_zip with to_stdout, core.py line 243) produce
byte-identical uncompressed output: the concatenation of the chunks equals
the whole decoded stream, for every positive chunk size, start counter and
declared total size. -/
theorem chunked_path_eq_single_shot_path (source : List Nat)
    (chunkSize bytesRead totalSize : Nat) (h : 0 < chunkSize) :
    (extractLoop source chunkSize bytesRead totalSize).1 = readAll source :=
  extractLoopF_fst source.length source chunkSize bytesRead totalSize le_rfl h

/-- Witness for C3 at a concrete entry and chunk size. -/
theorem chunked_path_eq_single_shot_path_witness :
    0 < 2 ∧ (extractLoop [10, 20, 30] 2 0 3).1 = readAll [10, 20, 30] :=
  ⟨by decide, chunked_path_eq_single_shot_path [10, 20, 30] 2 0 3 (by decide)⟩

/-- C5: a zero-length stored entry extracts with empty output and the chunk
loop exits on the first empty read before any progress computation, so the
division by the entry total size (here 0) is never performed: the list of
executed progress computations is empty.  The single-shot path also returns
the empty output. -/
theorem zero_length_stored_entry_extracts_empty (chunkSize bytesRead : Nat) :
    (extractLoop (storedDecode []) chunkSize bytesRead 0).1 = [] ∧
    (extractLoop (storedDecode []) chunkSize bytesRead 0).2 = [] ∧
    readAll (storedDecode []) = [] :=
  ⟨rfl, rfl, rfl⟩

/-- C1: when any requested filename is absent from the parsed name mapping,
extract_files_parallel (core.py lines 194-198) fails the whole batch with
the missing-entry error before the executor block is entered: the absent
name is reported in the error, no job is scheduled and no destination file
is written. -/
theorem batch_missing_entry_fail_fast (namelist filenames : List String)
    (outputDir : String) (flatten : Bool) (jobOk : String → Bool) (f : String)
    (hf : f ∈ filenames) (habs : f ∉ namelist) :
    (∃ missing, (extract_files_parallel namelist filenames outputDir flatten jobOk).result =
        .error (.missingEntry missing) ∧ f ∈ missing) ∧
    (extract_files_parallel namelist filenames outputDir flatten jobOk).scheduled = [] ∧
    (extract_files_parallel namelist filenames outputDir flatten jobOk).written = [] := by
  have hmem : f ∈ filenames.filter (fun f => !(namelist.contains f)) := by
    refine List.mem_filter.mpr ⟨hf, ?_⟩
    simp [habs]
  have hne : filenames.filter (fun f => !(namelist.contains f)) ≠ [] :=
    List.ne_nil_of_mem hmem
  have hempty : (filenames.filter (fun f => !(namelist.contains f))).isEmpty ≠ true := by
    simpa [List.isEmpty_iff] using hne
  unfold extract_files_parallel
  simp only [if_neg hempty]
  exact ⟨⟨filenames.filter (fun f => !(namelist.contains f)), rfl, hmem⟩, by trivial,
    by trivial⟩

/-- Witness for C1: one valid and one absent name. -/
theorem batch_missing_entry_fail_fast_witness :
    "b" ∈ ["a", "b"] ∧ "b" ∉ ["a"] ∧
    ((∃ missing, (extract_files_parallel ["a"] ["a", "b"] "out" false
        (fun _ => true)).result = .error (.missingEntry missing) ∧ "b" ∈ missing) ∧
      (extract_files_parallel ["a"] ["a", "b"] "out" false (fun _ => true)).scheduled = [] ∧
      (extract_files_parallel ["a"] ["a", "b"] "out" false (fun _ => true)).written = []) :=
  ⟨by decide, by decide,
    batch_missing_entry_fail_fast ["a"] ["a", "b"] "out" false (fun _ => true) "b"
      (by decide) (by decide)⟩

/-- C2: when every requested filename is present, every filename becomes one
scheduled job, one job raising does not cancel or fail the siblings, and the
call returns exactly the destination paths of the jobs that completed
without raising; a caller detects a lost job by comparing the length of the
returned list with the length of the input, the two being equal exactly
when every job succeeded.  The per-job outcome oracle jobOk is arbitrary,
so the membership of each destination path depends only on the outcome of
its own job, never on a sibling. -/
theorem batch_sibling_jobs_isolated (namelist filenames : List String)
    (outputDir : String) (flatten : Bool) (jobOk : String → Bool)
    (hall : ∀ f ∈ filenames, f ∈ namelist) :
    (extract_files_parallel namelist filenames outputDir flatten jobOk).scheduled = filenames ∧
    (extract_files_parallel namelist filenames outputDir flatten jobOk).result =
      .ok ((filenames.filter jobOk).map (destPath outputDir flatten)) ∧
    (∀ f ∈ filenames, jobOk f = true →
      destPath outputDir flatten f ∈ (filenames.filter jobOk).map (destPath outputDir flatten)) ∧
    (((filenames.filter jobOk).map (destPath outputDir flatten)).length = filenames.length ↔
      ∀ f ∈ filenames, jobOk f = true) := by
  have hnil : filenames.filter (fun f => !(namelist.contains f)) = [] := by
    refine List.filter_eq_nil_iff.mpr ?_
    intro a ha
    simp [hall a ha]
  have hempty : (filenames.filter (fun f => !(namelist.contains f))).isEmpty = true := by
    rw [hnil]
    rfl
  unfold extract_files_parallel
  simp only [if_pos hempty]
  refine ⟨by trivial, ?_, ?_, ?_⟩
  · rw [runJobs_eq_filter_map]
  · intro f hf hok
    exact List.mem_map_of_mem _ (List.mem_filter.mpr ⟨hf, hok⟩)
  · rw [List.length_map]
    exact length_filter_eq_length_iff jobOk filenames

/-- C7 counterexample: per-entry extraction performs direct console I/O.
At a concrete one-byte entry the stderr trace of extract_file holds one
progress line and the final newline, so it is not empty and the core is not
silent. -/
theorem core_extraction_console_counterexample :
    extractFileConsole "x.txt" [104] 1 1 =
      ["\rExtracting \x27x.txt\x27: 1 B/1 B (100%)", ""] ∧
    extractFileConsole "x.txt" [104] 1 1 ≠ [] := by decide

/-- C7 amended: the listing operation is silent, but per-entry extraction
always writes to stderr (even for an empty entry the loop epilogue prints a
newline, and each chunk adds a progress line), and batch extraction writes
per-job status lines: once the batch passes validation, every submitted
job's header line appears in the stderr trace of the call, whatever the
outcome of that job or its siblings. -/
theorem core_console_behavior (names : List String) :
    (list_files names).2 = [] ∧
    (∀ (filename : String) (data : List Nat) (chunkSize totalSize : Nat),
      extractFileConsole filename data chunkSize totalSize ≠ []) ∧
    (∀ (namelist filenames : List String) (outputDir : String) (flatten : Bool)
        (jobOk : String → Bool) (inner : String → List String) (errMsg : String → String),
      (∀ f ∈ filenames, f ∈ namelist) →
      ∀ f ∈ filenames,
        ("Extracting \x27" ++ f ++ "\x27 to \x27" ++ destPath outputDir flatten f ++
            "\x27...") ∈
          extractFilesParallelConsole namelist filenames outputDir flatten jobOk inner
            errMsg) := by
  refine ⟨rfl, fun filename data chunkSize totalSize h => ?_, ?_⟩
  · simp [extractFileConsole] at h
  · intro namelist filenames outputDir flatten jobOk inner errMsg hall f hf
    have hnil : filenames.filter (fun f => !(namelist.contains f)) = [] := by
      refine List.filter_eq_nil_iff.mpr ?_
      intro a ha
      simp [hall a ha]
    have hempty : (filenames.filter (fun f => !(namelist.contains f))).isEmpty = true := by
      rw [hnil]
      rfl
    unfold extractFilesParallelConsole
    simp only [if_pos hempty]
    refine List.mem_flatten.mpr
      ⟨batchJobConsole outputDir flatten jobOk inner errMsg f, List.mem_map_of_mem _ hf, ?_⟩
    exact List.mem_cons_self _ _

/-- Witness for C7 amended at concrete inputs, covering the listing, the
single-entry extraction and the batch operation. -/
theorem core_console_behavior_witness :
    (list_files ["a"]).2 = [] ∧ extractFileConsole "f" [1] 1 1 ≠ [] ∧
    "Extracting \x27a\x27 to \x27out/a\x27..." ∈
      extractFilesParallelConsole ["a"] ["a"] "out" false (fun _ => true) (fun _ => [])
        (fun _ => "") :=
  ⟨(core_console_behavior ["a"]).1, (core_console_behavior ["a"]).2.1 "f" [1] 1 1,
    (core_console_behavior ["a"]).2.2 ["a"] ["a"] "out" false (fun _ => true) (fun _ => [])
      (fun _ => "") (by decide) "a" (by decide)⟩

/-- Witness for C2: two valid names, the second job raising. -/
theorem batch_sibling_jobs_isolated_witness :
    (∀ f ∈ ["a", "b"], f ∈ ["a", "b"]) ∧
    ((extract_files_parallel ["a", "b"] ["a", "b"] "out" false
        (fun f => f == "a")).scheduled = ["a", "b"] ∧
      (extract_files_parallel ["a", "b"] ["a", "b"] "out" false (fun f => f == "a")).result =
        .ok ((["a", "b"].filter (fun f => f == "a")).map (destPath "out" false)) ∧
      (∀ f ∈ ["a", "b"], (fun f => f == "a") f = true →
        destPath "out" false f ∈
          (["a", "b"].filter (fun f => f == "a")).map (destPath "out" false)) ∧
      (((["a", "b"].filter (fun f => f == "a")).map (destPath "out" false)).length =
          (["a", "b"] : List String).length ↔
        ∀ f ∈ ["a", "b"], (fun f => f == "a") f = true)) :=
  ⟨by decide,
    batch_sibling_jobs_isolated ["a", "b"] ["a", "b"] "out" false (fun f => f == "a")
      (by decide)⟩

theorem applyTrace_readTrace (ranges : List (Nat × Nat)) :
    ∀ remote : List Nat, applyTrace (readTrace ranges) remote = remote := by
  induction ranges with
  | nil => intro remote; rfl
  | cons r rs ih => intro remote; simpa [applyTrace, readTrace, applyOp] using ih remote

theorem readTrace_append (r1 r2 : List (Nat × Nat)) :
    readTrace (r1 ++ r2) = readTrace r1 ++ readTrace r2 := by
  simp [readTrace]

theorem batchExtractTrace_eq (perJob : List (List (Nat × Nat))) :
    batchExtractTrace perJob = readTrace perJob.flatten := by
  have aux : ∀ (l : List (List (Nat × Nat))) (acc : List RemoteOp),
      l.foldl (fun acc r => acc ++ readTrace r) acc = acc ++ readTrace l.flatten := by
    intro l
    induction l with
    | nil => intro acc; simp [readTrace]
    | cons r rs ih =>
      intro acc
      simp only [List.foldl_cons, ih, List.flatten_cons, readTrace_append,
        List.append_assoc]
  simpa [batchExtractTrace] using aux perJob []

theorem mem_readTrace (op : RemoteOp) (ranges : List (Nat × Nat)) :
    op ∈ readTrace ranges → ∃ s l, op = RemoteOp.read s l := by
  intro h
  rcases List.mem_map.mp h with ⟨r, _, hr⟩
  exact ⟨r.1, r.2, hr.symm⟩

/-- C8: no core operation mutates the remote resource.  The source opens
the archive url through fs.open in the default read-only mode everywhere
(session load, per-entry extraction and every batch job) and issues only
reads, so each operation's remote trace consists of read actions only, and
replaying any such trace over the remote byte content leaves it
unchanged. -/
theorem remote_resource_never_mutated (openRanges entryRanges : List (Nat × Nat))
    (perJob : List (List (Nat × Nat))) (remote : List Nat) :
    applyTrace (listFilesTrace openRanges) remote = remote ∧
    applyTrace (extractFileTrace openRanges entryRanges) remote = remote ∧
    applyTrace (batchExtractTrace perJob) remote = remote ∧
    (∀ op ∈ listFilesTrace openRanges, ∃ s l, op = RemoteOp.read s l) ∧
    (∀ op ∈ extractFileTrace openRanges entryRanges, ∃ s l, op = RemoteOp.read s l) ∧
    (∀ op ∈ batchExtractTrace perJob, ∃ s l, op = RemoteOp.read s l) := by
  refine ⟨applyTrace_readTrace openRanges remote, ?_, ?_, ?_, ?_, ?_⟩
  · rw [extractFileTrace, ← readTrace_append]
    exact applyTrace_readTrace _ remote
  · rw [batchExtractTrace_eq]
    exact applyTrace_readTrace _ remote
  · exact fun op hop => mem_readTrace op openRanges hop
  · intro op hop
    rw [extractFileTrace, ← readTrace_append] at hop
    exact mem_readTrace op _ hop
  · intro op hop
    rw [batchExtractTrace_eq] at hop
    exact mem_readTrace op _ hop

/-- C10 counterexample: at 1048575 bytes the loop stops at unit index 1
(KB) with the exact value 1048575/1024, strictly below 1024, but the
two-decimal rendering rounds it up to exactly 1024.00, so the displayed
numeric part is not strictly below 1024 although the unit is KB, not
TB. -/
theorem format_size_rounding_counterexample :
    format_size 1048575 = "1024.00 KB" ∧
    (sizeLoop 1048575).2 = 1 ∧
    roundHalfEven ((sizeLoop 1048575).1.1 * 100) (sizeLoop 1048575).1.2 = 102400 := by
  decide

theorem sizeLoopF_exit (fuel : Nat) :
    ∀ num den ui, 4 - ui ≤ fuel →
      ¬(1024 * (sizeLoopF fuel num den ui).1.2 ≤ (sizeLoopF fuel num den ui).1.1 ∧
        (sizeLoopF fuel num den ui).2 < 4) := by
  induction fuel with
  | zero =>
    intro num den ui hf
    simp only [sizeLoopF]
    omega
  | succ fuel ih =>
    intro num den ui hf
    by_cases hc : 1024 * den ≤ num ∧ ui < 4
    · simp only [sizeLoopF, if_pos hc]
      exact ih num (den * 1024) (ui + 1) (by omega)
    · simp only [sizeLoopF, if_neg hc]
      exact hc

theorem sizeLoopF_index_le (fuel : Nat) :
    ∀ num den ui, ui ≤ 4 → (sizeLoopF fuel num den ui).2 ≤ 4 := by
  induction fuel with
  | zero => intro num den ui h; exact h
  | succ fuel ih =>
    intro num den ui h
    by_cases hc : 1024 * den ≤ num ∧ ui < 4
    · simp only [sizeLoopF, if_pos hc]
      exact ih num (den * 1024) (ui + 1) (by omega)
    · simp only [sizeLoopF, if_neg hc]
      exact h

/-- C10 amended: format_size always selects one of the units B, KB, MB,
GB, TB; the exact value held when the loop stops is strictly below 1024
whenever the unit is not TB, and an input below 1024 renders as a bare
integer with unit B; however the two-decimal rendering may round the
displayed numeric part up to exactly 1024.00 (see the counterexample), so
strict boundedness holds for the pre-rounding value, not for the rendered
numeric part. -/
theorem format_size_amended (n : Nat) :
    (sizeLoop n).2 ≤ 4 ∧
    ((sizeLoop n).2 < 4 → (sizeLoop n).1.1 < 1024 * (sizeLoop n).1.2) ∧
    (n < 1024 → format_size n = toString n ++ " B") ∧
    (∃ u ∈ sizeUnits, ∃ s, format_size n = s ++ " " ++ u) := by
  have hle : (sizeLoop n).2 ≤ 4 := sizeLoopF_index_le 4 n 1 0 (by omega)
  have hexit := sizeLoopF_exit 4 n 1 0 (by omega)
  refine ⟨hle, ?_, ?_, ?_⟩
  · intro hlt
    rw [sizeLoop] at hlt ⊢
    omega
  · intro hsmall
    have hstop : sizeLoop n = ((n, 1), 0) := by
      rw [sizeLoop]
      simp only [sizeLoopF]
      rw [if_neg]
      intro hc
      omega
    simp [format_size, hstop, sizeUnits, String.append_assoc]
  · refine ⟨sizeUnits.getD (sizeLoop n).2 "", ?_, ?_⟩
    · have : (sizeLoop n).2 = 0 ∨ (sizeLoop n).2 = 1 ∨ (sizeLoop n).2 = 2 ∨
          (sizeLoop n).2 = 3 ∨ (sizeLoop n).2 = 4 := by omega
      rcases this with h | h | h | h | h <;> simp [h, sizeUnits]
    · by_cases h0 : (sizeLoop n).2 = 0
      · exact ⟨toString ((sizeLoop n).1.1 / (sizeLoop n).1.2), by simp [format_size, h0]⟩
      · exact ⟨twoDecimalString (sizeLoop n).1.1 (sizeLoop n).1.2,
          by simp [format_size, h0]⟩

/-- Witness for C10 amended at a small input. -/
theorem format_size_amended_witness : 10 < 1024 ∧ format_size 10 = toString 10 ++ " B" :=
  ⟨by decide, (format_size_amended 10).2.2.1 (by decide)⟩

/-- C6: a 32-bit size or offset field is replaced from the Zip64 extension
exactly when it holds the sentinel 0xFFFFFFFF (and the 16-bit count exactly
when it holds 0xFFFF); when no field is sentinel the record passes through
unchanged for every extra field, the Zip64 data never being read; when the
Zip64 data is present, sentinel fields consume eight bytes each in the
fixed order uncompressed size, compressed size, local-header offset, so
each widened field reads the eight bytes at the position determined by how
many sentinel fields precede it in that order, and a non-sentinel field
keeps its 32-bit value. -/
theorem zip64_sentinel_widening (r : RawCDRecord) :
    ((r.uncompressedSize32 ≠ zip64Sentinel ∧ r.compressedSize32 ≠ zip64Sentinel ∧
        r.localHeaderOffset32 ≠ zip64Sentinel) →
      ∀ extra, applyZip64 r extra =
        some ⟨r.compressionMethod, r.uncompressedSize32, r.compressedSize32,
          r.localHeaderOffset32⟩) ∧
    (∀ (extra : List Nat) (b0 b1 b2 b3 b4 b5 b6 b7 b8 b9 b10 b11 b12 b13 b14 b15
        b16 b17 b18 b19 b20 b21 b22 b23 : Nat) (rest : List Nat),
      findZip64Extra extra =
        some ([b0, b1, b2, b3, b4, b5, b6, b7, b8, b9, b10, b11, b12, b13, b14, b15,
          b16, b17, b18, b19, b20, b21, b22, b23] ++ rest) →
      ∃ er, applyZip64 r extra = some er ∧
        er.compressionMethod = r.compressionMethod ∧
        er.uncompressedSize = (if r.uncompressedSize32 = zip64Sentinel then
            leVal [b0, b1, b2, b3, b4, b5, b6, b7]
          else r.uncompressedSize32) ∧
        er.compressedSize = (if r.compressedSize32 = zip64Sentinel then
            (if r.uncompressedSize32 = zip64Sentinel then
              leVal [b8, b9, b10, b11, b12, b13, b14, b15]
            else leVal [b0, b1, b2, b3, b4, b5, b6, b7])
          else r.compressedSize32) ∧
        er.localHeaderOffset = (if r.localHeaderOffset32 = zip64Sentinel then
            (if r.uncompressedSize32 = zip64Sentinel then
              (if r.compressedSize32 = zip64Sentinel then
                leVal [b16, b17, b18, b19, b20, b21, b22, b23]
              else leVal [b8, b9, b10, b11, b12, b13, b14, b15])
            else
              (if r.compressedSize32 = zip64Sentinel then
                leVal [b8, b9, b10, b11, b12, b13, b14, b15]
              else leVal [b0, b1, b2, b3, b4, b5, b6, b7]))
          else r.localHeaderOffset32)) ∧
    (∀ count16 zip64Count : Nat,
      (count16 ≠ 0xFFFF → effectiveEntryCount count16 zip64Count = count16) ∧
      effectiveEntryCount 0xFFFF zip64Count = zip64Count) := by
  refine ⟨?_, ?_, ?_⟩
  · intro h extra
    simp [applyZip64, h.1, h.2.1, h.2.2]
  · intro extra b0 b1 b2 b3 b4 b5 b6 b7 b8 b9 b10 b11 b12 b13 b14 b15
      b16 b17 b18 b19 b20 b21 b22 b23 rest hscan
    by_cases hu : r.uncompressedSize32 = zip64Sentinel <;>
      by_cases hc : r.compressedSize32 = zip64Sentinel <;>
        by_cases ho : r.localHeaderOffset32 = zip64Sentinel <;>
          simp [applyZip64, hscan, widenField, readU64LE, hu, hc, ho]
  · intro count16 zip64Count
    exact ⟨fun h => by simp [effectiveEntryCount, h], by simp [effectiveEntryCount]⟩

/-- Witness for C6: a record with sentinel uncompressed size and offset but
plain compressed size, against a Zip64 extended-information block of 24
bytes; the uncompressed size reads bytes 0-7 and the offset reads bytes
8-15 (the compressed size, not sentinel, consumes nothing). -/
theorem zip64_sentinel_widening_witness :
    ∃ er, applyZip64 ⟨8, zip64Sentinel, 77, zip64Sentinel⟩
        [1, 0, 24, 0, 0, 1, 2, 3, 4, 5, 6, 7, 8, 9, 10, 11, 12, 13, 14, 15, 16, 17,
          18, 19, 20, 21, 22, 23] = some er ∧
      er.compressionMethod = 8 ∧
      er.uncompressedSize = (if zip64Sentinel = zip64Sentinel then
          leVal [0, 1, 2, 3, 4, 5, 6, 7]
        else zip64Sentinel) ∧
      er.compressedSize = (if (77 : Nat) = zip64Sentinel then
          (if zip64Sentinel = zip64Sentinel then leVal [8, 9, 10, 11, 12, 13, 14, 15]
          else leVal [0, 1, 2, 3, 4, 5, 6, 7])
        else 77) ∧
      er.localHeaderOffset = (if zip64Sentinel = zip64Sentinel then
          (if zip64Sentinel = zip64Sentinel then
            (if (77 : Nat) = zip64Sentinel then leVal [16, 17, 18, 19, 20, 21, 22, 23]
            else leVal [8, 9, 10, 11, 12, 13, 14, 15])
          else
            (if (77 : Nat) = zip64Sentinel then leVal [8, 9, 10, 11, 12, 13, 14, 15]
            else leVal [0, 1, 2, 3, 4, 5, 6, 7]))
        else zip64Sentinel) :=
  (zip64_sentinel_widening ⟨8, zip64Sentinel, 77, zip64Sentinel⟩).2.1
    [1, 0, 24, 0, 0, 1, 2, 3, 4, 5, 6, 7, 8, 9, 10, 11, 12, 13, 14, 15, 16, 17, 18,
      19, 20, 21, 22, 23]
    0 1 2 3 4 5 6 7 8 9 10 11 12 13 14 15 16 17 18 19 20 21 22 23 []
    (by decide)

/-- C9: match_files returns an ascending sorted list without duplicates
whose elements all come from file_list; an element is returned exactly when
it matches at least one pattern (in glob mode, fnmatch acceptance of at
least one pattern), and in regex mode a pattern that fails to compile is
skipped without affecting the matches contributed by the other
patterns. -/
theorem match_files_spec (file_list patterns : List String) (use_regex : Bool)
    (globMatch : String → String → Bool) (compileRegex : String → Option (String → Bool)) :
    List.Sorted (· ≤ ·) (match_files file_list patterns use_regex globMatch compileRegex) ∧
    (match_files file_list patterns use_regex globMatch compileRegex).Nodup ∧
    (∀ f, f ∈ match_files file_list patterns use_regex globMatch compileRegex →
      f ∈ file_list) ∧
    (use_regex = false →
      ∀ f, f ∈ match_files file_list patterns false globMatch compileRegex ↔
        f ∈ file_list ∧ ∃ p ∈ patterns, globMatch f p = true) ∧
    (∀ (p : String) (l1 l2 : List String), compileRegex p = none →
      match_files file_list (l1 ++ p :: l2) true globMatch compileRegex =
        match_files file_list (l1 ++ l2) true globMatch compileRegex) := by
  have hperm := List.perm_insertionSort (α := String) (· ≤ ·)
    (collectMatches file_list patterns use_regex globMatch compileRegex)
  have hmem : ∀ f, f ∈ match_files file_list patterns use_regex globMatch compileRegex ↔
      f ∈ file_list ∧ ∃ p ∈ patterns,
        effectiveMatch use_regex globMatch compileRegex f p = true := by
    intro f
    rw [match_files, hperm.mem_iff, collectMatches,
      mem_collect_go file_list use_regex globMatch compileRegex patterns [] f]
    simp only [List.not_mem_nil, false_or]
  refine ⟨?_, ?_, ?_, ?_, ?_⟩
  · exact List.sorted_insertionSort (· ≤ ·) _
  · exact hperm.nodup_iff.mpr
      (nodup_collect_go file_list use_regex globMatch compileRegex patterns []
        List.nodup_nil)
  · exact fun f hf => ((hmem f).mp hf).1
  · intro hur f
    subst hur
    rw [hmem f]
    simp [effectiveMatch]
  · intro p l1 l2 hnone
    simp [match_files, collectMatches, List.foldl_append, List.foldl_cons,
      patternStep, hnone]

/-- Witness for C9: a concrete glob-mode call and a concrete regex-mode
call with one pattern failing to compile. -/
theorem match_files_spec_witness :
    (∀ f, f ∈ match_files ["b", "a"] ["a"] false (fun f p => f == p) (fun _ => none) ↔
      f ∈ ["b", "a"] ∧ ∃ p ∈ ["a"], (fun (f p : String) => f == p) f p = true) ∧
    match_files ["b"] (["q"] ++ "r" :: ["s"]) true (fun f p => f == p) (fun _ => none) =
      match_files ["b"] (["q"] ++ ["s"]) true (fun f p => f == p) (fun _ => none) :=
  ⟨(match_files_spec ["b", "a"] ["a"] false (fun f p => f == p) (fun _ => none)).2.2.2.1
      rfl,
    (match_files_spec ["b"] [] true (fun f p => f == p) (fun _ => none)).2.2.2.2
      "r" ["q"] ["s"] rfl⟩

end CloudUnzip
